import Mathlib

/-!
Verification of the snafu-upgrade-assistant core (src/main.rs): the
diagnostic classifier, the reverse-order byte-splicing patcher, the
per-file path-safety / read / patch / write pass, and the convergence
loop.  File contents are modelled as lists of byte values (`List Nat`,
each entry is one byte of the file); Rust panics (arithmetic underflow
on `usize`, `str::split_at` out of range or off a UTF-8 character
boundary) are modelled by `Option`/`Except` failure values.
-/

/-- UTF-8 bytes of the default suffix string "Snafu" (src/main.rs, `DEFAULT_SUFFIX`). -/
def snafuB : List Nat := [83, 110, 97, 102, 117]

/-- UTF-8 bytes of the legacy marker "Error" stripped by `head.strip_suffix("Error")`. -/
def errorB : List Nat := [69, 114, 114, 111, 114]

/-- UTF-8 bytes of the legacy marker "Context" stripped by `head.strip_suffix("Context")`. -/
def contextB : List Nat := [67, 111, 110, 116, 101, 120, 116]

/-- UTF-8 bytes of the placeholder "_" pushed by the `WithContextArgument` arm. -/
def underscoreB : List Nat := [95]

/-- The `Category<T>` enum of src/main.rs: a rewrite category carrying a payload. -/
inductive Category (T : Type) where
  | contextSelectorRename : T → Category T
  | withContextArgument : T → Category T
deriving DecidableEq, Repr

/-- `Category::unify`: drop the constructor, keep the payload. -/
def Category.unify {T : Type} : Category T → T
  | .contextSelectorRename v => v
  | .withContextArgument v => v

/-- `Category::map`: apply `f` to the payload, keeping the constructor. -/
def Category.map {T U : Type} (f : T → U) : Category T → Category U
  | .contextSelectorRename v => .contextSelectorRename (f v)
  | .withContextArgument v => .withContextArgument (f v)

/-- The `IntoIterator` impl for `Category<T>` where `T: IntoIterator`
(specialised to lists): wrap every element of the payload list in the
same constructor. -/
def Category.intoIter {T : Type} : Category (List T) → List (Category T)
  | .contextSelectorRename v => v.map Category.contextSelectorRename
  | .withContextArgument v => v.map Category.withContextArgument

/-- Rust's `str::is_char_boundary` on a byte list: index 0, the end of
the list, or a byte that is not a UTF-8 continuation byte
(i.e. not in 0x80..0xBF). -/
def isCharBoundary (s : List Nat) (i : Nat) : Bool :=
  i == 0 ||
    match s[i]? with
    | some b => decide (b < 128) || decide (192 ≤ b)
    | none => i == s.length

/-- Rust's `str::strip_suffix` on byte lists: `some` of the text with
the pattern removed from the end when the pattern is a suffix, `none`
otherwise. -/
def strip_suffix (s pat : List Nat) : Option (List Nat) :=
  if pat.isSuffixOf s then some (s.take (s.length - pat.length)) else none

/-- The two chained legacy-marker strips of the `ContextSelectorRename`
arm: `head.strip_suffix("Error").unwrap_or(head)` followed by
`.strip_suffix("Context").unwrap_or(..)` (src/main.rs lines 323-324). -/
def stripLegacy (h : List Nat) : List Nat :=
  let h1 := (strip_suffix h errorB).getD h
  (strip_suffix h1 contextB).getD h1

/-- Number of bytes removed by `stripLegacy`: the length of "Error"
when it is a suffix, plus the length of "Context" when it is a suffix
of what remains. -/
def legacyAmt (h : List Nat) : Nat :=
  let a1 := if errorB.isSuffixOf h then errorB.length else 0
  let a2 := if contextB.isSuffixOf ((strip_suffix h errorB).getD h) then contextB.length else 0
  a1 + a2

/-- The faithful patcher loop of `apply_once` (src/main.rs lines
306-353): anchors arrive already reversed (rightmost first), `content`
is the shrinking cursor, `pieces` the stack of finalized pieces with
the most recent push at the head.  The final content is the
concatenation of the pieces in reverse push order, i.e. `flatten` of
the cons list.  `none` models a panic of `str::split_at` (split point
past the end or off a character boundary) or the `end - 1` usize
underflow. -/
def patchSteps (suffix : List Nat) :
    List (Category (Nat × Nat)) → List Nat → List (List Nat) → Option (List Nat)
  | [], content, pieces => some ((content :: pieces).flatten)
  | Category.contextSelectorRename (_, e) :: rest, content, pieces =>
    if e ≤ content.length ∧ isCharBoundary content e = true then
      let head := content.take e
      let tail := content.drop e
      -- Assume we've already applied the suffix and avoid adding it again
      if suffix.isSuffixOf head then
        patchSteps suffix rest content pieces
      else
        patchSteps suffix rest (stripLegacy head) (suffix :: tail :: pieces)
    else none
  | Category.withContextArgument (_, e) :: rest, content, pieces =>
    -- The range points to the `||` in the closure arguments, so the code
    -- offsets by one to get into the middle; `e = 0` underflows `end - 1`.
    if 1 ≤ e ∧ e - 1 ≤ content.length ∧ isCharBoundary content (e - 1) = true then
      patchSteps suffix rest (content.take (e - 1))
        (underscoreB :: content.drop (e - 1) :: pieces)
    else none

/-- The patcher entry point: anchors are given ascending by range start
(the per-file order of the `FileMapping`), and the loop iterates them
reversed (`spans.iter().copied().rev()`), starting from the whole
content and an empty piece list. -/
def patch (suffix : List Nat) (spans : List (Category (Nat × Nat)))
    (content : List Nat) : Option (List Nat) :=
  patchSteps suffix spans.reverse content []

/-- Accumulator-free form of `patchSteps`: returns only the patched
text for the processed region, the pieces being appended by the
caller.  Proven equal to `patchSteps` in `patchSteps_eq_patchRev`. -/
def patchRev (suffix : List Nat) :
    List (Category (Nat × Nat)) → List Nat → Option (List Nat)
  | [], content => some content
  | Category.contextSelectorRename (_, e) :: rest, content =>
    if e ≤ content.length ∧ isCharBoundary content e = true then
      let head := content.take e
      if suffix.isSuffixOf head then
        patchRev suffix rest content
      else
        (patchRev suffix rest (stripLegacy head)).map (· ++ suffix ++ content.drop e)
    else none
  | Category.withContextArgument (_, e) :: rest, content =>
    if 1 ≤ e ∧ e - 1 ≤ content.length ∧ isCharBoundary content (e - 1) = true then
      (patchRev suffix rest (content.take (e - 1))).map
        (· ++ underscoreB ++ content.drop (e - 1))
    else none

/-- The split point an anchor hands to `str::split_at`: the end offset
for a rename, the end offset minus one for a placeholder insertion. -/
def splitPt : Category (Nat × Nat) → Nat
  | .contextSelectorRename (_, e) => e
  | .withContextArgument (_, e) => e - 1

/-- Validity of one anchor against the original content: the split
point is in range and on a character boundary (and the
placeholder-insertion end offset is nonzero, so `end - 1` does not
underflow). -/
def anchorOk (orig : List Nat) : Category (Nat × Nat) → Bool
  | .contextSelectorRename (_, e) =>
    decide (e ≤ orig.length) && isCharBoundary orig e
  | .withContextArgument (_, e) =>
    decide (1 ≤ e) && decide (e - 1 ≤ orig.length) && isCharBoundary orig (e - 1)

/-- The cursor length left after processing one anchor when the cursor
held the first `c` bytes of `orig`: unchanged for an already-suffixed
(skipped) rename, the end offset minus the stripped legacy-marker
length for an applied rename, the end offset minus one for a
placeholder insertion. -/
def cutAfter (suffix orig : List Nat) (c : Nat) : Category (Nat × Nat) → Nat
  | .contextSelectorRename (_, e) =>
    if suffix.isSuffixOf (orig.take e) then c else e - legacyAmt (orig.take e)
  | .withContextArgument (_, e) => e - 1

/-- Well-formedness of a processing-order (descending, rightmost
first) anchor list against the original content with cursor length
`c`: every anchor is valid, splits at or below the current cursor, and
the rest is well-formed for the cursor the anchor leaves behind.  This
is the formal content of "non-overlapping, ascending-by-start": each
earlier-starting anchor's split point lies at or before the region
already consumed by the later-starting ones. -/
def descWf (suffix orig : List Nat) : Nat → List (Category (Nat × Nat)) → Bool
  | _, [] => true
  | c, a :: ds =>
    anchorOk orig a && decide (splitPt a ≤ c) &&
      descWf suffix orig (cutAfter suffix orig c a) ds

/-- Rendered output of a well-formed descending anchor list over the
first `c` bytes of `orig`, written so that the preserved original
segments are explicit: a skipped rename contributes nothing, an
applied rename at end `e` contributes the suffix in place of bytes
`[e - legacyAmt, e)` followed by the untouched original bytes `[e, c)`,
and a placeholder insertion at end `e` contributes "_" followed by the
untouched original bytes `[e-1, c)`. -/
def renderD (suffix orig : List Nat) :
    List (Category (Nat × Nat)) → Nat → List Nat
  | [], c => orig.take c
  | Category.contextSelectorRename (_, e) :: ds, c =>
    if suffix.isSuffixOf (orig.take e) then
      renderD suffix orig ds c
    else
      renderD suffix orig ds (e - legacyAmt (orig.take e)) ++ suffix ++
        (orig.take c).drop e
  | Category.withContextArgument (_, e) :: ds, c =>
    renderD suffix orig ds (e - 1) ++ underscoreB ++ (orig.take c).drop (e - 1)

/-- Modelled from the spec: applying one edit independently, at its
offsets in the text it is given ("computing each edit against the
original offsets").  A rename at end `e` skips when the first `e`
bytes already end with the suffix, otherwise strips the legacy marker
and inserts the suffix before position `e`; a placeholder insertion
puts "_" at position `e - 1`. -/
def spliceOne (suffix : List Nat) (a : Category (Nat × Nat)) (t : List Nat) : List Nat :=
  match a with
  | .contextSelectorRename (_, e) =>
    if suffix.isSuffixOf (t.take e) then t
    else stripLegacy (t.take e) ++ suffix ++ t.drop e
  | .withContextArgument (_, e) => t.take (e - 1) ++ underscoreB ++ t.drop (e - 1)

/-- The `Span` record decoded from the build tool's JSON output. -/
structure Span where
  byte_start : Nat
  byte_end : Nat
  file_name : String
  is_primary : Bool
deriving DecidableEq, Repr

/-- The `Code` record: an opaque diagnostic-code string. -/
structure Code where
  code : String
deriving DecidableEq, Repr

/-- The `Message` record: an optional code and a list of spans. -/
structure Message where
  code : Option Code
  spans : List Span

/-- The `Line` record: one line of build-tool output, either a
compiler message or anything else (discarded). -/
inductive Line where
  | compilerMessage (message : Message)
  | other

/-- `Code::is_context_selector_rename`: the fixed Category A allow-list. -/
def Code.is_context_selector_rename (c : Code) : Bool :=
  ["E0412", "E0422", "E0423", "E0425", "E0432", "E0574"].any (fun x => x == c.code)

/-- `Code::is_with_context_argument`: the fixed Category B allow-list. -/
def Code.is_with_context_argument (c : Code) : Bool :=
  ["E0593"].any (fun x => x == c.code)

/-- `Code::categorize`: map a code to at most one category wrapping `v`. -/
def Code.categorize {T : Type} (c : Code) (v : T) : Option (Category T) :=
  if c.is_context_selector_rename then some (Category.contextSelectorRename v)
  else if c.is_with_context_argument then some (Category.withContextArgument v)
  else none

/-- The span filter of `apply_once` (src/main.rs lines 261-265): a
rename anchor keeps primary spans, a placeholder-insertion anchor
keeps the non-primary spans (the secondary message points to the
closure argument). -/
def relevantFilter : Category Span → Bool
  | .contextSelectorRename v => v.is_primary
  | .withContextArgument v => !v.is_primary

/-- The anchors one message contributes to `relevant_spans`
(src/main.rs lines 253-266): categorize by the code when present, fan
out over the message's spans, and filter by `relevantFilter`. -/
def messageAnchors (m : Message) : List (Category Span) :=
  match m.code.bind (fun c => c.categorize m) with
  | none => []
  | some cm => ((cm.map Message.spans).intoIter).filter relevantFilter

/-- Anchors contributed by a whole run of build-tool output lines:
records that are not compiler messages are dropped. -/
def relevantAnchors (lines : List Line) : List (Category Span) :=
  (lines.filterMap (fun l => match l with
    | .compilerMessage m => some m
    | .other => none)).flatMap messageAnchors

/-- A filesystem path as a component list (the component-wise view
`Path::starts_with` compares by). -/
abbrev FsPath := List String

/-- The `Opts` configuration record built from the command line. -/
structure Opts where
  version : Bool
  dry_run : Bool
  extra_check_arg : List String
  suffix : List Nat
  directory : FsPath
  max_iterations : Nat
  verbose : Bool

/-- The `FileMapping` of src/main.rs: file name to its ascending
anchor list (the per-cycle EditPlan). -/
abbrev FileMapping := List (String × List (Category (Nat × Nat)))

/-- The modelled filesystem: an association list from resolved path to
file bytes. -/
abbrev FS := List (FsPath × List Nat)

/-- Whole-file replacing write: `fs::write` creates or overwrites. -/
def fsWrite (fs : FS) (p : FsPath) (content : List Nat) : FS :=
  (p, content) :: fs.eraseP (fun entry => entry.1 == p)

/-- The fatal errors of one cycle's file pass: a path-safety
violation (carrying the offending resolved path and the configured
boundary), an unreadable file, or a patcher panic. -/
inductive RunError where
  | pathViolation (path : FsPath) (boundary : FsPath)
  | ioError (path : FsPath)
  | patchPanic
deriving DecidableEq

/-- Processing of a single `FileMapping` entry (src/main.rs lines
288-364): resolve the file name against the workspace root, check the
safe-directory boundary, read, patch, then write unless dry-run.  The
order matters: the boundary check precedes the read, which precedes
the patch, which precedes the dry-run test and the write. -/
def processFile (opts : Opts) (workspaceRoot : FsPath) (fs : FS)
    (filename : String) (spans : List (Category (Nat × Nat))) : Except RunError FS :=
  let resolved := workspaceRoot ++ [filename]
  if opts.directory.isPrefixOf resolved then
    match fs.lookup resolved with
    | none => .error (.ioError resolved)
    | some content =>
      match patch opts.suffix spans content with
      | none => .error .patchPanic
      | some modified =>
        if opts.dry_run then .ok fs
        else .ok (fsWrite fs resolved modified)
  else .error (.pathViolation resolved opts.directory)

/-- The per-file loop of `apply_once`: process every entry of the
`FileMapping` in order, stopping at the first fatal error. -/
def applyToFiles (opts : Opts) (workspaceRoot : FsPath) :
    FileMapping → FS → Except RunError FS
  | [], fs => .ok fs
  | (filename, spans) :: rest, fs =>
    match processFile opts workspaceRoot fs filename spans with
    | .error e => .error e
    | .ok fs' => applyToFiles opts workspaceRoot rest fs'

/-- One cycle of `apply_once` after the plan has been collected from
the diagnostics: apply the plan to the filesystem and return the plan
(returned whether or not dry-run suppressed the writes). -/
def apply_once (opts : Opts) (workspaceRoot : FsPath) (plan : FileMapping)
    (fs : FS) : Except RunError (FileMapping × FS) :=
  match applyToFiles opts workspaceRoot plan fs with
  | .error e => .error e
  | .ok fs' => .ok (plan, fs')

/-- The three terminal states of the convergence loop. -/
inductive Outcome where
  | converged
  | didNotConverge
  | noProgress
deriving DecidableEq

/-- Process exit status for each terminal state: `Ok(())` for
convergence, `process::exit(1)` for the two failures. -/
def Outcome.exitCode : Outcome → Nat
  | .converged => 0
  | .didNotConverge => 1
  | .noProgress => 1

/-- The `loop` of `main` (src/main.rs lines 191-218): `plans k` is the
EditPlan the `k`-th `apply_once` call would produce, `depth` the
iteration counter, `lastFix` the previous cycle's plan, `cycle` the
index of the next `apply_once` call.  Returns the terminal state and
how many further `apply_once` calls the loop performed. -/
def convergenceLoop (maxIter : Nat) (plans : Nat → FileMapping) :
    Nat → FileMapping → Nat → Outcome × Nat
  | depth, lastFix, cycle =>
    if lastFix.isEmpty then (.converged, 0)
    else if h : maxIter < depth then (.didNotConverge, 0)
    else
      let current := plans cycle
      if lastFix = current then (.noProgress, 1)
      else
        let r := convergenceLoop maxIter plans (depth + 1) current (cycle + 1)
        (r.1, r.2 + 1)
termination_by depth _ _ => maxIter + 1 - depth
decreasing_by omega

/-- The structure of `main` around the loop (src/main.rs lines
184-218): the first `apply_once` always runs (producing `plans 0`);
in dry-run mode the function returns success immediately after it,
otherwise the loop runs starting at depth 0 with cycle index 1.
Returns the terminal state and the total number of `apply_once`
calls. -/
def mainModel (dryRun : Bool) (maxIter : Nat) (plans : Nat → FileMapping) :
    Outcome × Nat :=
  if dryRun then (.converged, 1)
  else
    let r := convergenceLoop maxIter plans 0 (plans 0) 1
    (r.1, r.2 + 1)

/-! ## Relating the piece-accumulating loop to its accumulator-free form -/

theorem patchSteps_eq_patchRev (suffix : List Nat) :
    ∀ (l : List (Category (Nat × Nat))) (content : List Nat) (pieces : List (List Nat)),
      patchSteps suffix l content pieces
        = (patchRev suffix l content).map (· ++ pieces.flatten) := by
  intro l
  induction l with
  | nil => intro content pieces; simp [patchSteps, patchRev]
  | cons a rest ih =>
    intro content pieces
    match a with
    | Category.contextSelectorRename (s, e) =>
      simp only [patchSteps, patchRev]
      split
      · split
        · exact ih content pieces
        · rw [ih]
          cases patchRev suffix rest (stripLegacy (content.take e)) <;>
            simp [List.append_assoc]
      · rfl
    | Category.withContextArgument (s, e) =>
      simp only [patchSteps, patchRev]
      split
      · rw [ih]
        cases patchRev suffix rest (content.take (e - 1)) <;>
          simp [List.append_assoc]
      · rfl

theorem patch_eq_patchRev (suffix : List Nat) (spans : List (Category (Nat × Nat)))
    (content : List Nat) :
    patch suffix spans content = patchRev suffix spans.reverse content := by
  rw [patch, patchSteps_eq_patchRev]
  cases patchRev suffix spans.reverse content <;> simp

/-! ## Arithmetic helpers about take, drop and boundaries -/

theorem length_take_of_le (orig : List Nat) (c : Nat) (h : c ≤ orig.length) :
    (orig.take c).length = c := by
  rw [List.length_take]; omega

theorem take_take_of_le (orig : List Nat) (x c : Nat) (h : x ≤ c) :
    (orig.take c).take x = orig.take x := by
  rw [List.take_take]
  congr 1
  omega

theorem isCharBoundary_take {orig : List Nat} {e c : Nat} (hec : e ≤ c)
    (hc : c ≤ orig.length) (h : isCharBoundary orig e = true) :
    isCharBoundary (orig.take c) e = true := by
  by_cases he : e = 0
  · simp [isCharBoundary, he]
  · rcases Nat.lt_or_ge e c with hlt | hge
    · have hlt' : e < orig.length := by omega
      have hsome : orig[e]? = some (orig[e]) := List.getElem?_eq_getElem hlt'
      unfold isCharBoundary at h ⊢
      rw [List.getElem?_take_of_lt hlt, hsome]
      rw [hsome] at h
      exact h
    · have hec' : e = c := Nat.le_antisymm hec hge
      subst hec'
      have hnone : (orig.take e)[e]? = none := by
        apply List.getElem?_eq_none
        rw [List.length_take]; omega
      have hlen : (orig.take e).length = e := by
        rw [List.length_take]; omega
      unfold isCharBoundary
      rw [hnone, hlen]
      simp

/-! ## The legacy-marker strip as a take on the original content -/

theorem stripSuffix_getD (h p : List Nat) :
    (strip_suffix h p).getD h
      = h.take (h.length - (if p.isSuffixOf h then p.length else 0)) := by
  unfold strip_suffix
  split
  · simp [*]
  · simp [*, List.take_length]

theorem stripSuffix_getD_take (orig p : List Nat) (k : Nat) (hk : k ≤ orig.length) :
    (strip_suffix (orig.take k) p).getD (orig.take k)
      = orig.take (k - (if p.isSuffixOf (orig.take k) then p.length else 0)) := by
  rw [stripSuffix_getD, length_take_of_le orig k hk]
  by_cases h : p.isSuffixOf (orig.take k)
  · rw [if_pos h, take_take_of_le orig _ k (by omega)]
  · rw [if_neg h]
    simp only [Nat.sub_zero]
    exact List.take_of_length_le (Nat.le_of_eq (length_take_of_le orig k hk))

theorem stripLegacy_take (orig : List Nat) (e : Nat) (he : e ≤ orig.length) :
    stripLegacy (orig.take e) = orig.take (e - legacyAmt (orig.take e)) := by
  simp only [stripLegacy, legacyAmt]
  rw [stripSuffix_getD_take orig errorB e he]
  rw [stripSuffix_getD_take orig contextB _ (by omega)]
  congr 1
  omega

/-! ## The patcher as an explicit splice over the original content -/

theorem patchRev_renderD (suffix orig : List Nat) :
    ∀ (ds : List (Category (Nat × Nat))) (c : Nat), c ≤ orig.length →
      descWf suffix orig c ds = true →
      patchRev suffix ds (orig.take c) = some (renderD suffix orig ds c) := by
  intro ds
  induction ds with
  | nil =>
    intro c hc h
    simp [patchRev, renderD]
  | cons a ds ih =>
    intro c hc h
    simp only [descWf, Bool.and_eq_true, decide_eq_true_eq] at h
    obtain ⟨⟨hok, hsp⟩, hwf⟩ := h
    match a with
    | Category.contextSelectorRename (s, e) =>
      simp only [anchorOk, Bool.and_eq_true, decide_eq_true_eq] at hok
      obtain ⟨he, hb⟩ := hok
      simp only [splitPt] at hsp
      simp only [cutAfter] at hwf
      have hlen : (orig.take c).length = c := length_take_of_le orig c hc
      have hguard : e ≤ (orig.take c).length ∧ isCharBoundary (orig.take c) e = true :=
        ⟨by omega, isCharBoundary_take hsp hc hb⟩
      simp only [patchRev, renderD]
      rw [if_pos hguard, take_take_of_le orig e c hsp]
      by_cases hskip : suffix.isSuffixOf (orig.take e)
      · rw [if_pos hskip, if_pos hskip]
        rw [if_pos hskip] at hwf
        exact ih c hc hwf
      · rw [if_neg hskip, if_neg hskip]
        rw [if_neg hskip] at hwf
        rw [stripLegacy_take orig e he]
        rw [ih (e - legacyAmt (orig.take e)) (by omega) hwf]
        rfl
    | Category.withContextArgument (s, e) =>
      simp only [anchorOk, Bool.and_eq_true, decide_eq_true_eq] at hok
      obtain ⟨⟨h1e, hel⟩, hb⟩ := hok
      simp only [splitPt] at hsp
      simp only [cutAfter] at hwf
      have hlen : (orig.take c).length = c := length_take_of_le orig c hc
      have hguard : 1 ≤ e ∧ e - 1 ≤ (orig.take c).length ∧
          isCharBoundary (orig.take c) (e - 1) = true :=
        ⟨h1e, by omega, isCharBoundary_take hsp hc hb⟩
      simp only [patchRev, renderD]
      rw [if_pos hguard, take_take_of_le orig (e - 1) c hsp]
      rw [ih (e - 1) (by omega) hwf]
      rfl

/-- C1: for every file content and every non-overlapping,
ascending-by-start anchor list (formalised: the reversed,
processing-order list is `descWf`-well-formed), the patcher succeeds
and its output equals `renderD`, in which every output byte outside
the edited regions — the stripped legacy-marker bytes ending at a
rename's end offset and the insertion points — is exactly a contiguous
slice of the input, byte for byte, in original order; only the
anchored regions carry new bytes. -/
theorem patch_preserves_untouched_bytes (suffix orig : List Nat)
    (anchors : List (Category (Nat × Nat)))
    (h : descWf suffix orig orig.length anchors.reverse = true) :
    patch suffix anchors orig
      = some (renderD suffix orig anchors.reverse orig.length) := by
  rw [patch_eq_patchRev]
  have hmain := patchRev_renderD suffix orig anchors.reverse orig.length (Nat.le_refl _) h
  rw [List.take_length] at hmain
  exact hmain

theorem patch_preserves_untouched_bytes_witness :
    descWf snafuB [88, 69, 114, 114, 111, 114, 32, 124, 124, 98] 10
        [Category.withContextArgument (7, 9), Category.contextSelectorRename (0, 6)] = true
    ∧ patch snafuB
        [Category.contextSelectorRename (0, 6), Category.withContextArgument (7, 9)]
        [88, 69, 114, 114, 111, 114, 32, 124, 124, 98]
      = some [88, 83, 110, 97, 102, 117, 32, 124, 95, 124, 98] := by
  constructor
  · decide
  · rw [patch_preserves_untouched_bytes snafuB _ _ (by decide)]
    decide

/-- Auxiliary step for the reverse-order claim: applying one valid
edit to a text of the shape (first k original bytes) ++ rest, when the
edit's split point lies at or before k, rewrites only within the
original prefix and leaves rest untouched at the end. -/
theorem spliceOne_take_append (suffix orig rest : List Nat) (k : Nat)
    (A : Category (Nat × Nat)) (hk : k ≤ orig.length)
    (hok : anchorOk orig A = true) (hsp : splitPt A ≤ k) :
    spliceOne suffix A (orig.take k ++ rest) = renderD suffix orig [A] k ++ rest := by
  match A with
  | Category.contextSelectorRename (s, e) =>
    simp only [splitPt] at hsp
    simp only [spliceOne, renderD]
    have htk : (orig.take k ++ rest).take e = orig.take e := by
      rw [List.take_append_of_le_length (by rw [length_take_of_le orig k hk]; exact hsp)]
      exact take_take_of_le orig e k hsp
    rw [htk]
    by_cases hskip : suffix.isSuffixOf (orig.take e)
    · rw [if_pos hskip, if_pos hskip]
    · rw [if_neg hskip, if_neg hskip]
      have hdr : (orig.take k ++ rest).drop e = (orig.take k).drop e ++ rest :=
        List.drop_append_of_le_length (by rw [length_take_of_le orig k hk]; exact hsp)
      rw [hdr, stripLegacy_take orig e (by omega)]
      simp [List.append_assoc]
  | Category.withContextArgument (s, e) =>
    simp only [splitPt] at hsp
    simp only [spliceOne, renderD]
    have htk : (orig.take k ++ rest).take (e - 1) = orig.take (e - 1) := by
      rw [List.take_append_of_le_length (by rw [length_take_of_le orig k hk]; exact hsp)]
      exact take_take_of_le orig (e - 1) k hsp
    have hdr : (orig.take k ++ rest).drop (e - 1) = (orig.take k).drop (e - 1) ++ rest :=
      List.drop_append_of_le_length (by rw [length_take_of_le orig k hk]; exact hsp)
    rw [htk, hdr]
    simp [List.append_assoc]

/-- C2: for two valid anchors A and B in the same file, A's split point
at or before the cursor B's edit leaves behind (the formal meaning of
non-overlapping with A starting earlier), processing B before A — as
the patcher's descending-order loop does — equals applying each edit
independently with `spliceOne`, each computed against the original
offsets: B's edit never shifts the coordinate space A's offsets were
computed in, and vice versa. -/
theorem reverse_order_matches_original_offsets (suffix orig : List Nat)
    (A B : Category (Nat × Nat))
    (hA : anchorOk orig A = true) (hB : anchorOk orig B = true)
    (hsep : splitPt A ≤ cutAfter suffix orig orig.length B) :
    patch suffix [A, B] orig
      = some (spliceOne suffix A (spliceOne suffix B orig)) := by
  have hfront : descWf suffix orig orig.length [B, A] = true →
      patch suffix [A, B] orig = some (renderD suffix orig [B, A] orig.length) := by
    intro hwf
    have hrev : ([A, B] : List (Category (Nat × Nat))).reverse = [B, A] := by simp
    rw [patch_eq_patchRev, hrev]
    have hmain := patchRev_renderD suffix orig [B, A] orig.length (Nat.le_refl _) hwf
    rw [List.take_length] at hmain
    exact hmain
  rcases B with ⟨⟨s, e⟩⟩ | ⟨⟨s, e⟩⟩
  · have heB : e ≤ orig.length ∧ isCharBoundary orig e = true := by
      simpa only [anchorOk, Bool.and_eq_true, decide_eq_true_eq] using hB
    have hspB : splitPt (Category.contextSelectorRename (s, e)) ≤ orig.length := by
      simp only [splitPt]
      exact heB.1
    have hwf : descWf suffix orig orig.length
        [Category.contextSelectorRename (s, e), A] = true := by
      simp only [descWf, Bool.and_eq_true, Bool.and_true, decide_eq_true_eq]
      exact ⟨⟨hB, hspB⟩, hA, hsep⟩
    rw [hfront hwf]
    congr 1
    simp only [cutAfter] at hsep
    by_cases hskip : suffix.isSuffixOf (orig.take e)
    · rw [if_pos hskip] at hsep
      have hsplice : spliceOne suffix (Category.contextSelectorRename (s, e)) orig
          = orig := by
        simp only [spliceOne]
        rw [if_pos hskip]
      rw [hsplice]
      simp only [renderD]
      rw [if_pos hskip]
      have hfin := spliceOne_take_append suffix orig [] orig.length A (Nat.le_refl _) hA hsep
      rw [List.take_length, List.append_nil, List.append_nil] at hfin
      exact hfin.symm
    · rw [if_neg hskip] at hsep
      have hsplice : spliceOne suffix (Category.contextSelectorRename (s, e)) orig
          = orig.take (e - legacyAmt (orig.take e)) ++ (suffix ++ orig.drop e) := by
        simp only [spliceOne]
        rw [if_neg hskip, stripLegacy_take orig e heB.1]
        simp [List.append_assoc]
      rw [hsplice]
      rw [spliceOne_take_append suffix orig (suffix ++ orig.drop e)
        (e - legacyAmt (orig.take e)) A (Nat.le_trans (Nat.sub_le e _) heB.1) hA hsep]
      simp only [renderD]
      rw [if_neg hskip, List.take_length]
      simp [List.append_assoc]
  · have heB : (1 ≤ e ∧ e - 1 ≤ orig.length) ∧ isCharBoundary orig (e - 1) = true := by
      simpa only [anchorOk, Bool.and_eq_true, decide_eq_true_eq] using hB
    have hspB : splitPt (Category.withContextArgument (s, e)) ≤ orig.length := by
      simp only [splitPt]
      exact heB.1.2
    have hwf : descWf suffix orig orig.length
        [Category.withContextArgument (s, e), A] = true := by
      simp only [descWf, Bool.and_eq_true, Bool.and_true, decide_eq_true_eq]
      exact ⟨⟨hB, hspB⟩, hA, hsep⟩
    rw [hfront hwf]
    congr 1
    simp only [cutAfter] at hsep
    have hsplice : spliceOne suffix (Category.withContextArgument (s, e)) orig
        = orig.take (e - 1) ++ (underscoreB ++ orig.drop (e - 1)) := by
      simp only [spliceOne]
      simp [List.append_assoc]
    rw [hsplice]
    rw [spliceOne_take_append suffix orig (underscoreB ++ orig.drop (e - 1))
      (e - 1) A heB.1.2 hA hsep]
    simp only [renderD]
    rw [List.take_length]
    simp [List.append_assoc]

theorem reverse_order_matches_original_offsets_witness :
    patch snafuB
        [Category.contextSelectorRename (0, 3), Category.withContextArgument (4, 6)]
        [70, 111, 111, 32, 124, 124, 120]
      = some (spliceOne snafuB (Category.contextSelectorRename (0, 3))
          (spliceOne snafuB (Category.withContextArgument (4, 6))
            [70, 111, 111, 32, 124, 124, 120])) :=
  reverse_order_matches_original_offsets snafuB
    [70, 111, 111, 32, 124, 124, 120]
    (Category.contextSelectorRename (0, 3)) (Category.withContextArgument (4, 6))
    (by decide) (by decide) (by decide)

/-- C3: for a `ContextSelectorRename` anchor whose end offset already
has the configured suffix right before it, the loop emits no pieces
and leaves the cursor unchanged (the step is the identity on the loop
state), and applying the patcher to such content yields the content
back byte for byte — the rename is idempotent on already-suffixed
content. -/
theorem rename_already_suffixed_skips (suffix orig : List Nat)
    (pieces : List (List Nat)) (s e : Nat) (rest : List (Category (Nat × Nat)))
    (h1 : e ≤ orig.length) (h2 : isCharBoundary orig e = true)
    (h3 : suffix.isSuffixOf (orig.take e) = true) :
    patchSteps suffix (Category.contextSelectorRename (s, e) :: rest) orig pieces
      = patchSteps suffix rest orig pieces
    ∧ patch suffix [Category.contextSelectorRename (s, e)] orig = some orig := by
  constructor
  · simp only [patchSteps]
    rw [if_pos ⟨h1, h2⟩, if_pos h3]
  · rw [patch]
    simp only [List.reverse_cons, List.reverse_nil, List.nil_append]
    simp only [patchSteps]
    rw [if_pos ⟨h1, h2⟩, if_pos h3]
    simp [patchSteps]

theorem rename_already_suffixed_skips_witness :
    patch snafuB [Category.contextSelectorRename (0, 8)]
        [70, 111, 111, 83, 110, 97, 102, 117]
      = some [70, 111, 111, 83, 110, 97, 102, 117] :=
  (rename_already_suffixed_skips snafuB [70, 111, 111, 83, 110, 97, 102, 117]
    [] 0 8 [] (by decide) (by decide) (by decide)).2

/-- C6: legacy-suffix stripping with configured suffix "Snafu":
"FooError" with anchor end 8 gives "FooSnafu"; "FooContext" with
anchor end 10 gives "FooSnafu"; at most one match per recognized
legacy string is removed ("FooErrorError" with end 13 gives
"FooErrorSnafu", only one "Error" removed), in priority order, "Error"
first then "Context" ("FooContextError" with end 15 gives "FooSnafu"),
before the suffix is appended. -/
theorem legacy_strip_examples :
    patch snafuB [Category.contextSelectorRename (0, 8)]
        [70, 111, 111, 69, 114, 114, 111, 114]
      = some [70, 111, 111, 83, 110, 97, 102, 117]
    ∧ patch snafuB [Category.contextSelectorRename (0, 10)]
        [70, 111, 111, 67, 111, 110, 116, 101, 120, 116]
      = some [70, 111, 111, 83, 110, 97, 102, 117]
    ∧ patch snafuB [Category.contextSelectorRename (0, 13)]
        [70, 111, 111, 69, 114, 114, 111, 114, 69, 114, 114, 111, 114]
      = some [70, 111, 111, 69, 114, 114, 111, 114, 83, 110, 97, 102, 117]
    ∧ patch snafuB [Category.contextSelectorRename (0, 15)]
        [70, 111, 111, 67, 111, 110, 116, 101, 120, 116, 69, 114, 114, 111, 114]
      = some [70, 111, 111, 83, 110, 97, 102, 117] := by
  refine ⟨by decide, by decide, by decide, by decide⟩

/-- C7: for every `WithContextArgument` anchor with end offset E (one
past the closing pipe of the empty closure-parameter marker), valid
for the content, the patcher splits the content at E - 1 and inserts
exactly one placeholder byte "_" there, leaving everything else
unchanged. -/
theorem with_context_argument_inserts (suffix orig : List Nat) (s e : Nat)
    (h1 : 1 ≤ e) (h2 : e - 1 ≤ orig.length)
    (h3 : isCharBoundary orig (e - 1) = true) :
    patch suffix [Category.withContextArgument (s, e)] orig
      = some (orig.take (e - 1) ++ underscoreB ++ orig.drop (e - 1)) := by
  rw [patch]
  simp only [List.reverse_cons, List.reverse_nil, List.nil_append]
  simp only [patchSteps]
  rw [if_pos ⟨h1, h2, h3⟩]
  simp [patchSteps, List.append_assoc]

theorem with_context_argument_inserts_witness :
    patch snafuB [Category.withContextArgument (0, 2)]
        [124, 124, 32, 120, 46, 102, 97, 105, 108, 40, 41]
      = some [124, 95, 124, 32, 120, 46, 102, 97, 105, 108, 40, 41] := by
  rw [with_context_argument_inserts snafuB
    [124, 124, 32, 120, 46, 102, 97, 105, 108, 40, 41] 0 2
    (by decide) (by decide) (by decide)]
  decide

/-- C10: the patcher validates nothing about anchor offsets and is
partial: a `WithContextArgument` anchor with end offset 0 underflows
the `end - 1` subtraction and the program panics (modelled `none`); an
anchor whose split point exceeds the remaining content's length, or
does not fall on a UTF-8 character boundary, makes `str::split_at`
panic, aborting the run (modelled `none`). -/
theorem patcher_panics_on_bad_anchor (suffix content : List Nat) (pieces : List (List Nat))
    (s e : Nat) (rest : List (Category (Nat × Nat))) :
    patchSteps suffix (Category.withContextArgument (s, 0) :: rest) content pieces = none
    ∧ (content.length < e →
        patchSteps suffix (Category.contextSelectorRename (s, e) :: rest) content pieces
          = none)
    ∧ (content.length < e - 1 →
        patchSteps suffix (Category.withContextArgument (s, e) :: rest) content pieces
          = none)
    ∧ (isCharBoundary content e = false →
        patchSteps suffix (Category.contextSelectorRename (s, e) :: rest) content pieces
          = none)
    ∧ (1 ≤ e → isCharBoundary content (e - 1) = false →
        patchSteps suffix (Category.withContextArgument (s, e) :: rest) content pieces
          = none) := by
  refine ⟨?_, ?_, ?_, ?_, ?_⟩
  · simp only [patchSteps]
    rw [if_neg]
    intro h
    omega
  · intro hlt
    simp only [patchSteps]
    rw [if_neg]
    intro h
    omega
  · intro hlt
    simp only [patchSteps]
    rw [if_neg]
    intro h
    omega
  · intro hbd
    simp only [patchSteps]
    rw [if_neg]
    rintro ⟨-, h2⟩
    rw [hbd] at h2
    exact Bool.false_ne_true h2
  · intro h1 hbd
    simp only [patchSteps]
    rw [if_neg]
    rintro ⟨-, -, h3⟩
    rw [hbd] at h3
    exact Bool.false_ne_true h3

theorem patcher_panics_on_bad_anchor_witness :
    patchSteps snafuB [Category.withContextArgument (0, 0)] [97] [] = none
    ∧ patchSteps snafuB [Category.contextSelectorRename (0, 5)] [97] [] = none
    ∧ patchSteps snafuB [Category.contextSelectorRename (0, 1)] [195, 169] [] = none :=
  ⟨(patcher_panics_on_bad_anchor snafuB [97] [] 0 0 []).1,
   (patcher_panics_on_bad_anchor snafuB [97] [] 0 5 []).2.1 (by decide),
   (patcher_panics_on_bad_anchor snafuB [195, 169] [] 0 1 []).2.2.2.1 (by decide)⟩

/-- C5: the Classifier is a pure function of (diagnostic code, span):
a message whose code is in the Category A allow-list yields rename
anchors at exactly its primary spans; one whose code is in the
disjoint Category B allow-list yields placeholder anchors at exactly
its non-primary spans; a message with no code, or a code outside both
allow-lists, yields no anchor. -/
theorem classifier_pure_cases (m : Message) (c : Code) :
    (m.code = some c → c.is_context_selector_rename = true →
      messageAnchors m
        = (m.spans.filter (fun sp => sp.is_primary)).map Category.contextSelectorRename)
    ∧ (m.code = some c → c.is_with_context_argument = true →
      messageAnchors m
        = (m.spans.filter (fun sp => !sp.is_primary)).map Category.withContextArgument)
    ∧ (m.code = none → messageAnchors m = [])
    ∧ (m.code = some c → c.is_context_selector_rename = false →
        c.is_with_context_argument = false → messageAnchors m = []) := by
  refine ⟨?_, ?_, ?_, ?_⟩
  · intro hc hr
    simp only [messageAnchors, hc, Option.some_bind, Code.categorize]
    rw [if_pos hr]
    simp only [Category.map, Category.intoIter, List.filter_map]
    congr 1
  · intro hc hw
    have hcode : "E0593" = c.code := by
      simpa only [Code.is_with_context_argument, List.any_cons, List.any_nil,
        Bool.or_false, beq_iff_eq] using hw
    have hr : c.is_context_selector_rename = false := by
      simp only [Code.is_context_selector_rename]
      rw [← hcode]
      decide
    simp only [messageAnchors, hc, Option.some_bind, Code.categorize]
    rw [if_neg (by simp [hr]), if_pos hw]
    simp only [Category.map, Category.intoIter, List.filter_map]
    congr 1
  · intro hc
    simp [messageAnchors, hc]
  · intro hc hr hw
    simp only [messageAnchors, hc, Option.some_bind, Code.categorize]
    rw [if_neg (by simp [hr]), if_neg (by simp [hw])]

theorem classifier_pure_cases_witness :
    messageAnchors ⟨some ⟨"E0412"⟩, [⟨1, 2, "a", true⟩, ⟨3, 4, "a", false⟩]⟩
      = [Category.contextSelectorRename ⟨1, 2, "a", true⟩]
    ∧ messageAnchors ⟨some ⟨"E0593"⟩, [⟨1, 2, "a", true⟩, ⟨3, 4, "a", false⟩]⟩
      = [Category.withContextArgument ⟨3, 4, "a", false⟩]
    ∧ messageAnchors ⟨none, [⟨1, 2, "a", true⟩]⟩ = []
    ∧ messageAnchors ⟨some ⟨"E0308"⟩, [⟨1, 2, "a", true⟩]⟩ = [] := by
  refine ⟨?_, ?_, ?_, ?_⟩
  · rw [(classifier_pure_cases ⟨some ⟨"E0412"⟩, [⟨1, 2, "a", true⟩, ⟨3, 4, "a", false⟩]⟩
      ⟨"E0412"⟩).1 rfl (by decide)]
    decide
  · rw [(classifier_pure_cases ⟨some ⟨"E0593"⟩, [⟨1, 2, "a", true⟩, ⟨3, 4, "a", false⟩]⟩
      ⟨"E0593"⟩).2.1 rfl (by decide)]
    decide
  · exact (classifier_pure_cases ⟨none, [⟨1, 2, "a", true⟩]⟩ ⟨"E0308"⟩).2.2.1 rfl
  · exact (classifier_pure_cases ⟨some ⟨"E0308"⟩, [⟨1, 2, "a", true⟩]⟩
      ⟨"E0308"⟩).2.2.2 rfl (by decide) (by decide)

/-- C4: the convergence loop's termination rules hold in the stated
priority: an empty EditPlan ends the run with success (exit 0); else
an iteration counter beyond the configured maximum, checked before a
cycle runs, ends it with the did-not-converge failure (non-zero exit);
else a cycle whose EditPlan equals the previous one ends it with the
no-progress failure (non-zero exit); otherwise the counter is
incremented, the plan recorded as previous, and another cycle runs. -/
theorem convergence_loop_rules (maxIter depth cycle : Nat)
    (lastFix : FileMapping) (plans : Nat → FileMapping) :
    (lastFix = [] →
      convergenceLoop maxIter plans depth lastFix cycle = (Outcome.converged, 0)
        ∧ Outcome.exitCode Outcome.converged = 0)
    ∧ (lastFix ≠ [] → maxIter < depth →
      convergenceLoop maxIter plans depth lastFix cycle = (Outcome.didNotConverge, 0)
        ∧ Outcome.exitCode Outcome.didNotConverge ≠ 0)
    ∧ (lastFix ≠ [] → depth ≤ maxIter → plans cycle = lastFix →
      convergenceLoop maxIter plans depth lastFix cycle = (Outcome.noProgress, 1)
        ∧ Outcome.exitCode Outcome.noProgress ≠ 0)
    ∧ (lastFix ≠ [] → depth ≤ maxIter → plans cycle ≠ lastFix →
      convergenceLoop maxIter plans depth lastFix cycle
        = ((convergenceLoop maxIter plans (depth + 1) (plans cycle) (cycle + 1)).1,
           (convergenceLoop maxIter plans (depth + 1) (plans cycle) (cycle + 1)).2 + 1)) := by
  refine ⟨?_, ?_, ?_, ?_⟩
  · intro h
    subst h
    rw [convergenceLoop]
    exact ⟨by simp, rfl⟩
  · intro h1 h2
    rw [convergenceLoop]
    rw [if_neg (by simp [List.isEmpty_iff, h1]), dif_pos h2]
    exact ⟨rfl, by decide⟩
  · intro h1 h2 h3
    rw [convergenceLoop]
    rw [if_neg (by simp [List.isEmpty_iff, h1]), dif_neg (by omega), if_pos h3.symm]
    exact ⟨rfl, by decide⟩
  · intro h1 h2 h3
    rw [convergenceLoop]
    rw [if_neg (by simp [List.isEmpty_iff, h1]), dif_neg (by omega),
      if_neg (fun hh => h3 hh.symm)]

theorem convergence_loop_rules_witness :
    convergenceLoop 5 (fun _ => []) 0 [] 1 = (Outcome.converged, 0)
    ∧ convergenceLoop 5 (fun _ => [("a", [])]) 7 [("a", [])] 1
        = (Outcome.didNotConverge, 0)
    ∧ convergenceLoop 5 (fun _ => [("a", [])]) 0 [("a", [])] 1
        = (Outcome.noProgress, 1) := by
  refine ⟨?_, ?_, ?_⟩
  · exact ((convergence_loop_rules 5 0 1 [] (fun _ => [])).1 rfl).1
  · exact ((convergence_loop_rules 5 7 1 [("a", [])] (fun _ => [("a", [])])).2.1
      (by decide) (by omega)).1
  · exact ((convergence_loop_rules 5 0 1 [("a", [])] (fun _ => [("a", [])])).2.2.1
      (by decide) (by omega) rfl).1

theorem processFile_dry_run (opts : Opts) (root : FsPath) (fs g : FS)
    (filename : String) (spans : List (Category (Nat × Nat)))
    (hdry : opts.dry_run = true)
    (h : processFile opts root fs filename spans = Except.ok g) : g = fs := by
  simp only [processFile] at h
  rw [hdry] at h
  simp at h
  split at h
  · split at h
    · simp at h
    · split at h
      · simp at h
      · simp at h
        exact h.symm
  · simp at h

theorem applyToFiles_dry_run (opts : Opts) (root : FsPath) (hdry : opts.dry_run = true) :
    ∀ (plan : FileMapping) (fs g : FS),
      applyToFiles opts root plan fs = Except.ok g → g = fs := by
  intro plan
  induction plan with
  | nil =>
    intro fs g h
    simp only [applyToFiles, Except.ok.injEq] at h
    exact h.symm
  | cons entry rest ih =>
    intro fs g h
    rcases entry with ⟨f2, s2⟩
    unfold applyToFiles at h
    split at h
    · simp at h
    · rename_i fs1 heq
      rw [ih fs1 g h, processFile_dry_run opts root fs fs1 f2 s2 hdry heq]

/-- C8: in dry-run mode, for any EditPlan, exactly one cycle is
performed and the run ends with success (the loop never continues past
the first cycle); a dry-run per-file pass that completes leaves every
target file's bytes unchanged; and `apply_once` still returns the
computed EditPlan. -/
theorem dry_run_single_cycle_no_writes (opts : Opts) (root : FsPath)
    (plan : FileMapping) (fs fs' : FS) (maxIter : Nat) (plans : Nat → FileMapping)
    (hdry : opts.dry_run = true) :
    mainModel true maxIter plans = (Outcome.converged, 1)
    ∧ (applyToFiles opts root plan fs = Except.ok fs' → fs' = fs)
    ∧ (∀ p g, apply_once opts root plan fs = Except.ok (p, g) → p = plan ∧ g = fs) := by
  refine ⟨by simp [mainModel], fun h => applyToFiles_dry_run opts root hdry plan fs fs' h, ?_⟩
  intro p g h
  unfold apply_once at h
  split at h
  · simp at h
  · rename_i fs1 heq
    simp only [Except.ok.injEq, Prod.mk.injEq] at h
    obtain ⟨hp, hg⟩ := h
    refine ⟨hp.symm, ?_⟩
    rw [← hg]
    exact applyToFiles_dry_run opts root hdry plan fs fs1 heq

theorem dry_run_single_cycle_no_writes_witness :
    mainModel true 5 (fun _ => []) = (Outcome.converged, 1)
    ∧ ([(["r", "a"], [97])] : FS) = [(["r", "a"], [97])] := by
  have h := dry_run_single_cycle_no_writes
    (⟨false, true, [], snafuB, ["r"], 5, false⟩ : Opts) ["r"]
    [("a", [Category.contextSelectorRename (0, 0)])]
    [(["r", "a"], [97])] [(["r", "a"], [97])] 5 (fun _ => []) rfl
  exact ⟨h.1, h.2.1 (by rfl)⟩

/-- C9: a file whose resolved absolute path does not lie within the
configured safe-directory boundary makes `processFile` fail with an
error naming both the offending path and the boundary — uniformly in
the filesystem, showing the check happens before the file is read and
that nothing is written to it — and a plan containing such an entry
makes the whole per-file pass of the run fail with an error. -/
theorem path_safety_guard (opts : Opts) (root : FsPath) (filename : String)
    (spans : List (Category (Nat × Nat))) (plan : FileMapping)
    (hout : opts.directory.isPrefixOf (root ++ [filename]) = false) :
    (∀ fs : FS, processFile opts root fs filename spans
      = Except.error (RunError.pathViolation (root ++ [filename]) opts.directory))
    ∧ ((filename, spans) ∈ plan →
      ∀ fs : FS, ∃ err : RunError,
        applyToFiles opts root plan fs = Except.error err) := by
  have hpf : ∀ fs : FS, processFile opts root fs filename spans
      = Except.error (RunError.pathViolation (root ++ [filename]) opts.directory) := by
    intro fs
    unfold processFile
    rw [if_neg]
    rw [hout]
    simp
  refine ⟨hpf, ?_⟩
  induction plan with
  | nil =>
    intro hmem fs
    cases hmem
  | cons entry rest ih =>
    intro hmem fs
    rcases entry with ⟨f2, s2⟩
    unfold applyToFiles
    cases hpr : processFile opts root fs f2 s2 with
    | error e => exact ⟨e, rfl⟩
    | ok fs2 =>
      rcases List.mem_cons.mp hmem with heq | hmem'
      · injection heq with h1 h2
        subst h1
        subst h2
        rw [hpf fs] at hpr
        simp at hpr
      · obtain ⟨err, herr⟩ := ih hmem' fs2
        exact ⟨err, herr⟩

theorem path_safety_guard_witness :
    processFile (⟨false, false, [], snafuB, ["safe"], 5, false⟩ : Opts) ["ws"] [] "a" []
      = Except.error (RunError.pathViolation ["ws", "a"] ["safe"]) :=
  (path_safety_guard (⟨false, false, [], snafuB, ["safe"], 5, false⟩ : Opts) ["ws"] "a" []
    [] (by decide)).1 []
